import Mathlib

/-
Verification of the Huffman-tree construction core (`src/huffman_tree.rs`).

The Rust code builds a Huffman code tree in two steps:
  * `get_frequencies` counts character occurrences in a `HashMap` and seeds a
    `std::collections::BinaryHeap<HuffmanNode>` with one leaf per distinct
    character;
  * `build_huffman_tree` repeatedly pops the two highest-priority nodes and
    pushes their merge, until one node remains.

`HuffmanNode`'s `Ord` instance reverses the comparison on `freq`, so the
(max-)`BinaryHeap` behaves as a min-priority queue on frequency.  Tie-breaking
between equal-frequency nodes is decided by the exact `BinaryHeap` algorithms
(`sift_up` on push, swap-with-last plus `sift_down_to_bottom` on pop), so we
embed those algorithms faithfully, with the backing `Vec` as a `List`.

`HashMap` key-iteration order is unspecified (and randomized across runs of a
Rust program); the embedding therefore takes the key enumeration order as an
explicit parameter, constrained only to enumerate the distinct characters of
the input (`KeysOf`).

Recursive heap procedures are written with an explicit fuel argument (always
called with enough fuel, as proved by the length lemmas below) so that every
definition is structurally recursive and computes inside the kernel.
-/

namespace Huffman

open List

/-- A node in the Huffman code tree.  The Rust code pairs `freq : usize` with
the tagged union `NodeData` (variants `Character(char)` and
`Children(Rc<HuffmanNode>, Rc<HuffmanNode>)`); we flatten the struct and the
enum into one inductive with one constructor per variant, each carrying the
`freq` field.  `Rc` sharing is irrelevant for values. -/
inductive HuffmanNode where
  | leaf (c : Char) (freq : Nat)
  | internal (left right : HuffmanNode) (freq : Nat)
deriving DecidableEq

/-- The `freq()` accessor. -/
def HuffmanNode.freq : HuffmanNode → Nat
  | .leaf _ f => f
  | .internal _ _ f => f

@[simp] theorem HuffmanNode.freq_leaf (c : Char) (f : Nat) :
    (HuffmanNode.leaf c f).freq = f := rfl

@[simp] theorem HuffmanNode.freq_internal (l r : HuffmanNode) (f : Nat) :
    (HuffmanNode.internal l r f).freq = f := rfl

/-- The `Ord` implementation: `self.freq.cmp(&other.freq).reverse()`. -/
def HuffmanNode.cmp (x y : HuffmanNode) : Ordering :=
  (compare x.freq y.freq).swap

/-- The `PartialEq` implementation: `self.freq == other.freq`. -/
def HuffmanNode.beq (x y : HuffmanNode) : Bool :=
  x.freq == y.freq

/-- Rust `x <= y` as derived from the `Ord` instance
(`PartialOrd::le` holds when `cmp` is not `Greater`). -/
def HuffmanNode.ordLe (x y : HuffmanNode) : Bool :=
  x.cmp y != Ordering.gt

theorem HuffmanNode.ordLe_iff (x y : HuffmanNode) :
    x.ordLe y = true ↔ y.freq ≤ x.freq := by
  rcases Nat.lt_trichotomy x.freq y.freq with h | h | h
  · rw [HuffmanNode.ordLe, HuffmanNode.cmp, Nat.compare_eq_lt.mpr h]
    exact iff_of_false (by decide) (by omega)
  · rw [HuffmanNode.ordLe, HuffmanNode.cmp, Nat.compare_eq_eq.mpr h]
    exact iff_of_true (by decide) (by omega)
  · rw [HuffmanNode.ordLe, HuffmanNode.cmp, Nat.compare_eq_gt.mpr h]
    exact iff_of_true (by decide) (by omega)

/-- The backing array (`data : Vec<HuffmanNode>`) of the
`BinaryHeap<HuffmanNode>`, root at index 0, children of `i` at
`2*i+1` and `2*i+2`. -/
abbrev BinaryHeap := List HuffmanNode

/-- Placeholder value for out-of-bounds reads.  All reads performed by the
heap algorithms are in bounds, so its value never matters. -/
def dummyNode : HuffmanNode := .leaf 'a' 0

/-- Read the `i`-th array slot. -/
def nth (l : BinaryHeap) (i : Nat) : HuffmanNode :=
  (l[i]?).getD dummyNode

theorem nth_eq_getElem (l : BinaryHeap) (i : Nat) (h : i < l.length) :
    nth l i = l[i] := by
  simp [nth, List.getElem?_eq_getElem h]

/-- Swap the array slots `i` and `j`.  Rust's `Hole` moves values around a
conceptual hole; each `move_to` is exactly a swap between the hole position
(holding the sifted element) and the target slot. -/
def swapList (l : BinaryHeap) (i j : Nat) : BinaryHeap :=
  (l.set i (nth l j)).set j (nth l i)

@[simp] theorem length_swapList (l : BinaryHeap) (i j : Nat) :
    (swapList l i j).length = l.length := by
  simp [swapList]

theorem nth_swapList_fst (l : BinaryHeap) (i j : Nat) (hij : i ≠ j)
    (hi : i < l.length) (hj : j < l.length) :
    nth (swapList l i j) i = nth l j := by
  have h1 : i < ((l.set i (nth l j)).set j (nth l i)).length := by simpa using hi
  rw [swapList, nth_eq_getElem _ _ h1, List.getElem_set_ne (Ne.symm hij),
    List.getElem_set_self, nth_eq_getElem _ _ hj]

theorem nth_swapList_snd (l : BinaryHeap) (i j : Nat) (_hi : i < l.length)
    (hj : j < l.length) :
    nth (swapList l i j) j = nth l i := by
  have h1 : j < ((l.set i (nth l j)).set j (nth l i)).length := by simpa using hj
  rw [swapList, nth_eq_getElem _ _ h1, List.getElem_set_self]

theorem nth_swapList_other (l : BinaryHeap) (i j k : Nat) (hki : k ≠ i)
    (hkj : k ≠ j) :
    nth (swapList l i j) k = nth l k := by
  by_cases hk : k < l.length
  · have h1 : k < ((l.set i (nth l j)).set j (nth l i)).length := by simpa using hk
    rw [swapList, nth_eq_getElem _ _ h1, List.getElem_set_ne (Ne.symm hkj),
      List.getElem_set_ne (Ne.symm hki), nth_eq_getElem _ _ hk]
  · simp only [nth]
    rw [List.getElem?_eq_none (l := swapList l i j) (by simp; omega),
      List.getElem?_eq_none (l := l) (by omega)]

/-- Rust `BinaryHeap::sift_up`, fueled.  The element at `pos` moves
toward the root while it is strictly greater than its parent in `Ord` order
(that is, while its `freq` is strictly smaller); it stops at `start`. -/
def siftUpFuel : Nat → BinaryHeap → Nat → Nat → BinaryHeap
  | 0, l, _, _ => l
  | fuel + 1, l, start, pos =>
    if start < pos then
      if (nth l pos).ordLe (nth l ((pos - 1) / 2)) then l
      else siftUpFuel fuel (swapList l pos ((pos - 1) / 2)) start ((pos - 1) / 2)
    else l

/-- Rust `BinaryHeap::sift_up(start, pos)`. -/
def sift_up (l : BinaryHeap) (start pos : Nat) : BinaryHeap :=
  siftUpFuel pos l start pos

/-- The preferred child of `pos` during `sift_down_to_bottom`: of the two
children, the greater in `Ord` order (smaller frequency), the right child
when they compare equal (`child += (hole.get(child) <= hole.get(child+1))`). -/
def preferredChild (l : BinaryHeap) (pos : Nat) : Nat :=
  if (nth l (2 * pos + 1)).ordLe (nth l (2 * pos + 2)) then 2 * pos + 2
  else 2 * pos + 1

/-- The hole-descent phase of Rust `BinaryHeap::sift_down_to_bottom`, fueled:
while `pos` has two children the hole moves to the preferred child; a final
single left child (at the last array slot) is also entered.  Returns the
array together with the final hole position. -/
def siftDownPathFuel : Nat → BinaryHeap → Nat → BinaryHeap × Nat
  | 0, l, pos => (l, pos)
  | fuel + 1, l, pos =>
    if 2 * pos + 2 < l.length then
      siftDownPathFuel fuel (swapList l pos (preferredChild l pos)) (preferredChild l pos)
    else if 2 * pos + 1 < l.length then
      (swapList l pos (2 * pos + 1), 2 * pos + 1)
    else (l, pos)

def siftDownPath (l : BinaryHeap) (pos : Nat) : BinaryHeap × Nat :=
  siftDownPathFuel l.length l pos

/-- Rust `BinaryHeap::sift_down_to_bottom(pos)`: move the hole to the bottom
of the tree, then sift the element back up toward `pos`. -/
def sift_down_to_bottom (l : BinaryHeap) (pos : Nat) : BinaryHeap :=
  sift_up (siftDownPath l pos).1 pos (siftDownPath l pos).2

/-- Rust `BinaryHeap::push`: append, then `sift_up(0, old_len)`. -/
def push (l : BinaryHeap) (x : HuffmanNode) : BinaryHeap :=
  sift_up (l ++ [x]) 0 l.length

/-- Rust `BinaryHeap::pop`: remove the last array element; if the heap is
still nonempty, swap it with the root (which is returned) and restore the
heap with `sift_down_to_bottom(0)`. -/
def pop (l : BinaryHeap) : Option (HuffmanNode × BinaryHeap) :=
  if l.isEmpty then none
  else
    if l.dropLast.isEmpty then some (nth l (l.length - 1), l.dropLast)
    else some (nth l.dropLast 0,
      sift_down_to_bottom (l.dropLast.set 0 (nth l (l.length - 1))) 0)

/-- The per-character count computed by the `HashMap` loop of
`get_frequencies`: the entry for `c` starts at 0 and is incremented once per
occurrence, hence equals `s.count c`. -/
def charCount (s : List Char) (c : Char) : Nat :=
  s.count c

/-- The push loop of `get_frequencies`: one leaf `HuffmanNode::leaf(c, freq[c])` per key
of the frequency map.  `HashMap::keys` yields the distinct characters of `s`
in an unspecified order, so the enumeration `keyOrder` is a parameter. -/
def get_frequencies (s : List Char) (keyOrder : List Char) : BinaryHeap :=
  keyOrder.foldl (fun q c => push q (HuffmanNode.leaf c (charCount s c))) []

/-- The predicate stating that `keyOrder` is a possible result of iterating `freq.keys()`: it lists each
distinct character of `s` exactly once, in some order. -/
def KeysOf (s keyOrder : List Char) : Prop :=
  keyOrder.Nodup ∧ (∀ c ∈ keyOrder, c ∈ s) ∧ (∀ c ∈ s, c ∈ keyOrder)

instance (s keyOrder : List Char) : Decidable (KeysOf s keyOrder) := by
  unfold KeysOf; infer_instance

/-- One iteration of the merge loop of `build_huffman_tree`: pop `x`, pop
`y`, push `HuffmanNode::internal(x, y, x.freq() + y.freq())`.  The `unwrap`s
cannot fail while the queue holds more than one node; the `none` fallbacks
are unreachable there. -/
def mergeStep (q : BinaryHeap) : BinaryHeap :=
  match pop q with
  | none => q
  | some (x, q1) =>
    match pop q1 with
    | none => q1
    | some (y, q2) => push q2 (HuffmanNode.internal x y (x.freq + y.freq))

/-- The `while min_queue.len() > 1` loop, fueled. -/
def mergeLoopFuel : Nat → BinaryHeap → BinaryHeap
  | 0, q => q
  | fuel + 1, q => if 1 < q.length then mergeLoopFuel fuel (mergeStep q) else q

def mergeLoop (q : BinaryHeap) : BinaryHeap :=
  mergeLoopFuel q.length q

/-- Rust `build_huffman_tree`, with the mutable borrow of the queue made explicit:
the result pairs the returned `Result` with the final queue state. -/
def build_huffman_tree (q : BinaryHeap) :
    Except String HuffmanNode × BinaryHeap :=
  if q.isEmpty then
    (Except.error "cannot construct a Huffman code with no characters", q)
  else
    match pop (mergeLoop q) with
    | some (root, q') => (Except.ok root, q')
    | none => (Except.error "cannot construct a Huffman code with no characters", mergeLoop q)

/-- Pop every node off the queue, in order (the extraction order used by the
`tree_built_correctly` test), fueled. -/
def drainFuel : Nat → BinaryHeap → List HuffmanNode
  | 0, _ => []
  | fuel + 1, q =>
    match pop q with
    | none => []
    | some (x, q') => x :: drainFuel fuel q'

def drain (q : BinaryHeap) : List HuffmanNode :=
  drainFuel q.length q

/-! Multiset preservation and size behaviour of the heap operations. -/

theorem getSet_cons_perm (t : BinaryHeap) (j : Nat) (a : HuffmanNode)
    (hj : j < t.length) : nth t j :: t.set j a ~ a :: t := by
  induction t generalizing j with
  | nil => simp at hj
  | cons b t ih =>
    cases j with
    | zero =>
      rw [nth_eq_getElem _ _ hj]
      simpa using List.Perm.swap a b t
    | succ j =>
      have hj' : j < t.length := by simpa using hj
      have h1 : nth (b :: t) (j + 1) = nth t j := by simp [nth]
      have h2 : (b :: t).set (j + 1) a = b :: t.set j a := rfl
      rw [h1, h2]
      exact ((List.Perm.swap b (nth t j) (t.set j a)).trans
        ((ih j hj').cons b)).trans (List.Perm.swap a b t)

theorem swapList_perm (l : BinaryHeap) (i j : Nat) (hij : i ≠ j)
    (hi : i < l.length) (hj : j < l.length) : swapList l i j ~ l := by
  have hj' : j < (l.set i (nth l j)).length := by simpa using hj
  have p2 : nth (l.set i (nth l j)) j :: swapList l i j ~
      nth l i :: l.set i (nth l j) :=
    getSet_cons_perm (l.set i (nth l j)) j (nth l i) hj'
  have hnj : nth (l.set i (nth l j)) j = nth l j := by
    rw [nth_eq_getElem _ _ hj', List.getElem_set_ne hij]
    exact (nth_eq_getElem l j hj).symm
  have p1 : nth l i :: l.set i (nth l j) ~ nth l j :: l :=
    getSet_cons_perm l i (nth l j) hi
  rw [hnj] at p2
  exact (p2.trans p1).cons_inv

theorem siftUpFuel_perm (fuel : Nat) : ∀ (l : BinaryHeap) (start pos : Nat),
    pos < l.length → siftUpFuel fuel l start pos ~ l := by
  induction fuel with
  | zero => intro l start pos _; exact List.Perm.refl l
  | succ fuel ih =>
    intro l start pos hpos
    rw [siftUpFuel]
    by_cases hs : start < pos
    · rw [if_pos hs]
      by_cases hle : (nth l pos).ordLe (nth l ((pos - 1) / 2)) = true
      · rw [if_pos hle]
      · rw [if_neg hle]
        have hpar : (pos - 1) / 2 < pos := by omega
        have hswap : swapList l pos ((pos - 1) / 2) ~ l :=
          swapList_perm l pos ((pos - 1) / 2) (by omega) hpos (by omega)
        exact (ih _ start _ (by simpa using by omega)).trans hswap
    · rw [if_neg hs]

theorem sift_up_perm (l : BinaryHeap) (start pos : Nat) (h : pos < l.length) :
    sift_up l start pos ~ l :=
  siftUpFuel_perm pos l start pos h

theorem preferredChild_gt (l : BinaryHeap) (pos : Nat) :
    pos < preferredChild l pos ∧ preferredChild l pos ≤ 2 * pos + 2 := by
  unfold preferredChild
  by_cases h : (nth l (2 * pos + 1)).ordLe (nth l (2 * pos + 2)) = true
  · rw [if_pos h]; omega
  · rw [if_neg h]; omega

theorem siftDownPathFuel_spec (fuel : Nat) : ∀ (l : BinaryHeap) (pos : Nat),
    pos < l.length →
    (siftDownPathFuel fuel l pos).1 ~ l ∧
      (siftDownPathFuel fuel l pos).2 < l.length := by
  induction fuel with
  | zero => intro l pos h; exact ⟨List.Perm.refl l, h⟩
  | succ fuel ih =>
    intro l pos hpos
    rw [siftDownPathFuel]
    by_cases h2 : 2 * pos + 2 < l.length
    · rw [if_pos h2]
      have hch := preferredChild_gt l pos
      have hswap : swapList l pos (preferredChild l pos) ~ l :=
        swapList_perm l pos (preferredChild l pos) (by omega) hpos (by omega)
      have hlen : (swapList l pos (preferredChild l pos)).length = l.length :=
        length_swapList l pos (preferredChild l pos)
      have := ih (swapList l pos (preferredChild l pos)) (preferredChild l pos)
        (by omega)
      exact ⟨this.1.trans hswap, by omega⟩
    · rw [if_neg h2]
      by_cases h1 : 2 * pos + 1 < l.length
      · rw [if_pos h1]
        exact ⟨swapList_perm l pos (2 * pos + 1) (by omega) hpos h1, h1⟩
      · rw [if_neg h1]
        exact ⟨List.Perm.refl l, hpos⟩

theorem sift_down_to_bottom_perm (l : BinaryHeap) (pos : Nat)
    (h : pos < l.length) : sift_down_to_bottom l pos ~ l := by
  have hspec := siftDownPathFuel_spec l.length l pos h
  have hlen : (siftDownPath l pos).1.length = l.length :=
    (siftDownPathFuel_spec l.length l pos h).1.length_eq
  exact (sift_up_perm (siftDownPath l pos).1 pos (siftDownPath l pos).2
    (by rw [hlen]; exact hspec.2)).trans hspec.1

theorem push_perm (l : BinaryHeap) (x : HuffmanNode) : push l x ~ x :: l := by
  have h : l.length < (l ++ [x]).length := by simp
  exact (sift_up_perm (l ++ [x]) 0 l.length h).trans
    (List.perm_append_singleton x l)

@[simp] theorem length_push (l : BinaryHeap) (x : HuffmanNode) :
    (push l x).length = l.length + 1 := by
  simpa using (push_perm l x).length_eq

theorem pop_eq_none_iff (l : BinaryHeap) : pop l = none ↔ l = [] := by
  constructor
  · intro h
    by_contra hne
    rw [pop, if_neg (by simpa [List.isEmpty_iff] using hne)] at h
    by_cases hd : l.dropLast.isEmpty = true
    · rw [if_pos hd] at h; exact Option.noConfusion h
    · rw [if_neg hd] at h; exact Option.noConfusion h
  · intro h; subst h; rfl

theorem pop_perm (l : BinaryHeap) (x : HuffmanNode) (l' : BinaryHeap)
    (h : pop l = some (x, l')) : x :: l' ~ l := by
  have hne : l ≠ [] := by
    intro hnil; subst hnil; exact Option.noConfusion h
  rw [pop, if_neg (by simpa [List.isEmpty_iff] using hne)] at h
  have hlast : nth l (l.length - 1) = l.getLast hne := by
    rw [List.getLast_eq_getElem,
      nth_eq_getElem _ _ (by have := List.length_pos.mpr hne; omega)]
  by_cases hd : l.dropLast.isEmpty = true
  · rw [if_pos hd] at h
    obtain ⟨rfl, rfl⟩ : nth l (l.length - 1) = x ∧ l.dropLast = l' := by
      cases h; exact ⟨rfl, rfl⟩
    rw [List.isEmpty_iff] at hd
    rw [hd, hlast]
    have h3 : [l.getLast hne] = l := by
      simpa [hd] using List.dropLast_append_getLast hne
    rw [h3]
  · rw [if_neg hd] at h
    rw [List.isEmpty_iff] at hd
    have hdlen : 0 < l.dropLast.length := List.length_pos.mpr hd
    obtain ⟨rfl, rfl⟩ : nth l.dropLast 0 = x ∧
        sift_down_to_bottom (l.dropLast.set 0 (nth l (l.length - 1))) 0 = l' := by
      cases h; exact ⟨rfl, rfl⟩
    have hsd : sift_down_to_bottom (l.dropLast.set 0 (nth l (l.length - 1))) 0 ~
        l.dropLast.set 0 (nth l (l.length - 1)) :=
      sift_down_to_bottom_perm _ 0 (by simpa using hdlen)
    have hcons : nth l.dropLast 0 :: l.dropLast.set 0 (nth l (l.length - 1)) ~
        nth l (l.length - 1) :: l.dropLast :=
      getSet_cons_perm l.dropLast 0 (nth l (l.length - 1)) hdlen
    have hfull : nth l (l.length - 1) :: l.dropLast ~ l := by
      rw [hlast]
      exact (List.perm_append_singleton (l.getLast hne) l.dropLast).symm.trans
        (by rw [List.dropLast_append_getLast hne])
    exact ((hsd.cons _).trans hcons).trans hfull

theorem pop_isSome (l : BinaryHeap) (hne : l ≠ []) :
    ∃ x l', pop l = some (x, l') := by
  rw [pop, if_neg (by simpa [List.isEmpty_iff] using hne)]
  by_cases hd : l.dropLast.isEmpty = true
  · rw [if_pos hd]; exact ⟨_, _, rfl⟩
  · rw [if_neg hd]; exact ⟨_, _, rfl⟩

theorem pop_length (l : BinaryHeap) (x : HuffmanNode) (l' : BinaryHeap)
    (h : pop l = some (x, l')) : l'.length + 1 = l.length := by
  simpa using (pop_perm l x l' h).length_eq

/-! Structure of the merge loop. -/

theorem mergeStep_spec (q : BinaryHeap) (h : 2 ≤ q.length) :
    ∃ x q1 y q2, pop q = some (x, q1) ∧ pop q1 = some (y, q2) ∧
      mergeStep q = push q2 (HuffmanNode.internal x y (x.freq + y.freq)) ∧
      q2.length + 2 = q.length := by
  obtain ⟨x, q1, h1⟩ := pop_isSome q (by intro hq; subst hq; simp at h)
  have hq1 : q1.length + 1 = q.length := pop_length q x q1 h1
  obtain ⟨y, q2, h2⟩ := pop_isSome q1
    (by intro hq; subst hq; simp at hq1; omega)
  have hq2 : q2.length + 1 = q1.length := pop_length q1 y q2 h2
  refine ⟨x, q1, y, q2, h1, h2, ?_, by omega⟩
  simp only [mergeStep, h1, h2]

theorem mergeStep_length (q : BinaryHeap) (h : 2 ≤ q.length) :
    (mergeStep q).length + 1 = q.length := by
  obtain ⟨x, q1, y, q2, _, _, heq, hlen⟩ := mergeStep_spec q h
  rw [heq, length_push]
  omega

theorem mergeStep_perm (q : BinaryHeap) (h : 2 ≤ q.length) :
    ∃ x y q2, x :: y :: q2 ~ q ∧
      mergeStep q ~ HuffmanNode.internal x y (x.freq + y.freq) :: q2 := by
  obtain ⟨x, q1, y, q2, h1, h2, heq, _⟩ := mergeStep_spec q h
  refine ⟨x, y, q2, ?_, by rw [heq]; exact push_perm q2 _⟩
  exact ((pop_perm q1 y q2 h2).cons x).trans (pop_perm q x q1 h1)

theorem mergeLoopFuel_length (fuel : Nat) : ∀ q : BinaryHeap,
    q.length ≤ fuel + 1 → 1 ≤ q.length → (mergeLoopFuel fuel q).length = 1 := by
  induction fuel with
  | zero => intro q hf h1; rw [mergeLoopFuel]; omega
  | succ fuel ih =>
    intro q hf h1
    rw [mergeLoopFuel]
    by_cases hq : 1 < q.length
    · rw [if_pos hq]
      have hstep := mergeStep_length q (by omega)
      exact ih (mergeStep q) (by omega) (by omega)
    · rw [if_neg hq]; omega

theorem mergeLoop_length (q : BinaryHeap) (h : 1 ≤ q.length) :
    (mergeLoop q).length = 1 :=
  mergeLoopFuel_length q.length q (by omega) h

/-- Any property preserved by a merge step (on queues of length at least two)
is an invariant of the whole merge loop. -/
theorem mergeLoopFuel_inv (P : BinaryHeap → Prop)
    (hP : ∀ q, 2 ≤ q.length → P q → P (mergeStep q)) (fuel : Nat) :
    ∀ q : BinaryHeap, P q → P (mergeLoopFuel fuel q) := by
  induction fuel with
  | zero => intro q h; exact h
  | succ fuel ih =>
    intro q h
    rw [mergeLoopFuel]
    by_cases hq : 1 < q.length
    · rw [if_pos hq]
      exact ih (mergeStep q) (hP q (by omega) h)
    · rw [if_neg hq]; exact h

theorem mergeLoop_inv (P : BinaryHeap → Prop)
    (hP : ∀ q, 2 ≤ q.length → P q → P (mergeStep q)) (q : BinaryHeap)
    (h : P q) : P (mergeLoop q) :=
  mergeLoopFuel_inv P hP q.length q h

/-! Behaviour of `build_huffman_tree`. -/

theorem build_huffman_tree_empty :
    build_huffman_tree [] =
      (Except.error "cannot construct a Huffman code with no characters", []) :=
  rfl

theorem build_huffman_tree_ok (q : BinaryHeap) (h : q ≠ []) :
    ∃ r, pop (mergeLoop q) = some (r, []) ∧ mergeLoop q = [r] ∧
      build_huffman_tree q = (Except.ok r, []) := by
  have hlen : (mergeLoop q).length = 1 :=
    mergeLoop_length q (by have := List.length_pos.mpr h; omega)
  obtain ⟨r, q', hpop⟩ := pop_isSome (mergeLoop q)
    (by intro hnil; rw [hnil] at hlen; simp at hlen)
  have hq' : q' = [] := by
    have := pop_length _ _ _ hpop
    rw [hlen] at this
    exact List.length_eq_zero.mp (by omega)
  subst hq'
  have hsingle : mergeLoop q = [r] := by
    have hp := pop_perm _ _ _ hpop
    exact (List.singleton_perm.mp hp).symm
  refine ⟨r, hpop, hsingle, ?_⟩
  rw [build_huffman_tree, if_neg (by simpa [List.isEmpty_iff] using h), hpop]

theorem build_huffman_tree_singleton (x : HuffmanNode) :
    build_huffman_tree [x] = (Except.ok x, []) := by
  obtain ⟨r, _, hsingle, hbuild⟩ := build_huffman_tree_ok [x] (by simp)
  have hml : mergeLoop [x] = [x] := rfl
  rw [hml] at hsingle
  obtain rfl : x = r := by simpa using hsingle
  exact hbuild

/-! Content of the seeded priority queue. -/

theorem foldl_push_perm (f : Char → HuffmanNode) (ko : List Char) :
    ∀ q0 : BinaryHeap, ko.foldl (fun q c => push q (f c)) q0 ~ ko.map f ++ q0 := by
  induction ko with
  | nil => intro q0; simp
  | cons a t ih =>
    intro q0
    have h1 : (a :: t).foldl (fun q c => push q (f c)) q0 =
        t.foldl (fun q c => push q (f c)) (push q0 (f a)) := rfl
    rw [h1]
    refine (ih (push q0 (f a))).trans ?_
    have h2 : t.map f ++ push q0 (f a) ~ t.map f ++ (f a :: q0) :=
      (push_perm q0 (f a)).append_left (t.map f)
    refine h2.trans ?_
    have h3 : (a :: t).map f ++ q0 = f a :: (t.map f ++ q0) := by simp
    rw [h3]
    exact List.perm_middle

theorem get_frequencies_perm (s ko : List Char) :
    get_frequencies s ko ~ ko.map (fun c => HuffmanNode.leaf c (charCount s c)) := by
  simpa using foldl_push_perm (fun c => HuffmanNode.leaf c (charCount s c)) ko []

theorem get_frequencies_length (s ko : List Char) :
    (get_frequencies s ko).length = ko.length := by
  simpa using (get_frequencies_perm s ko).length_eq

/-! Predicates on the produced tree. -/

/-- Frequency conservation: every internal node's frequency is the sum of its
children's frequencies. -/
def freqInv : HuffmanNode → Prop
  | .leaf _ _ => True
  | .internal l r f => f = l.freq + r.freq ∧ freqInv l ∧ freqInv r

/-- The characters carried by the leaves, left to right. -/
def leafChars : HuffmanNode → List Char
  | .leaf c _ => [c]
  | .internal l r _ => leafChars l ++ leafChars r

/-- The (character, frequency) pairs carried by the leaves, left to right. -/
def leafPairs : HuffmanNode → List (Char × Nat)
  | .leaf c f => [(c, f)]
  | .internal l r _ => leafPairs l ++ leafPairs r

/-- In every internal node the left child's frequency is at most the right
child's frequency. -/
def leftLe : HuffmanNode → Prop
  | .leaf _ _ => True
  | .internal l r _ => l.freq ≤ r.freq ∧ leftLe l ∧ leftLe r

/-- Total frequency stored in the queue. -/
def sumFreq (q : BinaryHeap) : Nat :=
  (q.map HuffmanNode.freq).sum

/-- All leaf characters appearing anywhere in the queue. -/
def queueChars (q : BinaryHeap) : List Char :=
  (q.map leafChars).flatten

theorem sumFreq_of_perm {q q' : BinaryHeap} (h : q ~ q') :
    sumFreq q = sumFreq q' :=
  (h.map HuffmanNode.freq).sum_eq

theorem queueChars_of_perm {q q' : BinaryHeap} (h : q ~ q') :
    queueChars q ~ queueChars q' :=
  (h.map leafChars).flatten

theorem keysOf_perm_dedup (s ko : List Char) (hk : KeysOf s ko) :
    ko ~ s.dedup := by
  rw [List.perm_ext_iff_of_nodup hk.1 s.nodup_dedup]
  intro a
  rw [List.mem_dedup]
  exact ⟨fun h => hk.2.1 a h, fun h => hk.2.2 a h⟩

theorem keysOf_nil (ko : List Char) (hk : KeysOf [] ko) : ko = [] := by
  rcases ko with _ | ⟨a, t⟩
  · rfl
  · exact absurd (hk.2.1 a (by simp)) (by simp)

theorem sum_charCounts (s ko : List Char) (hk : KeysOf s ko) :
    (ko.map (charCount s)).sum = s.length := by
  have hperm := (keysOf_perm_dedup s ko hk).map (charCount s)
  rw [hperm.sum_eq]
  simpa [charCount] using List.sum_map_count_dedup_eq_length s

theorem build_ok_inv (q : BinaryHeap) (r : HuffmanNode) (q' : BinaryHeap)
    (h : build_huffman_tree q = (Except.ok r, q')) :
    q' = [] ∧ mergeLoop q = [r] ∧ q ≠ [] := by
  by_cases hq : q = []
  · subst hq
    rw [build_huffman_tree_empty] at h
    exact absurd (congrArg Prod.fst h) (by simp)
  · obtain ⟨r0, _, hsingle, hbuild⟩ := build_huffman_tree_ok q hq
    rw [hbuild] at h
    have h1 : r0 = r := by
      have := congrArg Prod.fst h
      simpa using this
    have h2 : q' = [] := by
      have := congrArg Prod.snd h
      simpa using this.symm
    subst h1
    exact ⟨h2, hsingle, hq⟩

/-- C2: the empty queue is the only failure.  An empty queue (equivalently,
`get_frequencies` of the empty input) yields the `EmptyInputError`; every
nonempty queue yields `Ok` with a root node. -/
theorem empty_input_error_only_failure :
    build_huffman_tree [] =
      (Except.error "cannot construct a Huffman code with no characters", []) ∧
    (∀ ko : List Char, KeysOf [] ko →
      build_huffman_tree (get_frequencies [] ko) =
        (Except.error "cannot construct a Huffman code with no characters", [])) ∧
    (∀ q : BinaryHeap, q ≠ [] →
      ∃ r : HuffmanNode, build_huffman_tree q = (Except.ok r, [])) := by
  refine ⟨rfl, ?_, ?_⟩
  · intro ko hk
    rw [keysOf_nil ko hk]
    rfl
  · intro q hq
    obtain ⟨r, _, _, hbuild⟩ := build_huffman_tree_ok q hq
    exact ⟨r, hbuild⟩

/-- Witness for `empty_input_error_only_failure`. -/
theorem empty_input_error_only_failure_witness :
    KeysOf [] [] ∧
    build_huffman_tree (get_frequencies [] []) =
      (Except.error "cannot construct a Huffman code with no characters", []) ∧
    ([HuffmanNode.leaf 'z' 3] ≠ ([] : BinaryHeap)) ∧
    (∃ r : HuffmanNode,
      build_huffman_tree [HuffmanNode.leaf 'z' 3] = (Except.ok r, [])) :=
  ⟨by decide, empty_input_error_only_failure.2.1 [] (by decide), by decide,
    empty_input_error_only_failure.2.2 [HuffmanNode.leaf 'z' 3] (by decide)⟩

/-- C5: a queue holding exactly one node returns that node unchanged, with no
internal node created; in particular the input "aaaa" yields the single leaf
`('a', 4)`. -/
theorem singleton_queue_returns_node (x : HuffmanNode) :
    build_huffman_tree [x] = (Except.ok x, []) ∧
    (∀ ko : List Char, KeysOf ['a', 'a', 'a', 'a'] ko →
      build_huffman_tree (get_frequencies ['a', 'a', 'a', 'a'] ko) =
        (Except.ok (HuffmanNode.leaf 'a' 4), [])) := by
  refine ⟨build_huffman_tree_singleton x, ?_⟩
  intro ko hk
  have hko : ko = ['a'] := by
    have hperm := keysOf_perm_dedup ['a', 'a', 'a', 'a'] ko hk
    have hded : (['a', 'a', 'a', 'a'] : List Char).dedup = ['a'] := by decide
    rw [hded] at hperm
    exact List.perm_singleton.mp hperm
  subst hko
  have hq : get_frequencies ['a', 'a', 'a', 'a'] ['a'] =
      [HuffmanNode.leaf 'a' 4] := rfl
  rw [hq]
  exact build_huffman_tree_singleton _

/-- Witness for `singleton_queue_returns_node`. -/
theorem singleton_queue_returns_node_witness :
    KeysOf ['a', 'a', 'a', 'a'] ['a'] ∧
    build_huffman_tree (get_frequencies ['a', 'a', 'a', 'a'] ['a']) =
      (Except.ok (HuffmanNode.leaf 'a' 4), []) :=
  ⟨by decide,
    (singleton_queue_returns_node (HuffmanNode.leaf 'a' 4)).2 ['a'] (by decide)⟩

/-- C7: the merge loop terminates because every step pops two nodes and
pushes one, shrinking the queue by exactly one element, until a single node
remains. -/
theorem merge_loop_shrinks_and_terminates :
    (∀ q : BinaryHeap, 2 ≤ q.length →
      ∃ x q1 y q2, pop q = some (x, q1) ∧ pop q1 = some (y, q2) ∧
        mergeStep q = push q2 (HuffmanNode.internal x y (x.freq + y.freq)) ∧
        q2.length + 2 = q.length ∧ (mergeStep q).length + 1 = q.length) ∧
    (∀ q : BinaryHeap, 1 ≤ q.length → (mergeLoop q).length = 1) := by
  refine ⟨?_, mergeLoop_length⟩
  intro q hq
  obtain ⟨x, q1, y, q2, h1, h2, heq, hlen⟩ := mergeStep_spec q hq
  exact ⟨x, q1, y, q2, h1, h2, heq, hlen, mergeStep_length q hq⟩

/-- Witness for `merge_loop_shrinks_and_terminates`. -/
theorem merge_loop_shrinks_and_terminates_witness :
    2 ≤ ([HuffmanNode.leaf 'a' 1, HuffmanNode.leaf 'b' 2] : BinaryHeap).length ∧
    1 ≤ ([HuffmanNode.leaf 'a' 1, HuffmanNode.leaf 'b' 2] : BinaryHeap).length ∧
    (∃ x q1 y q2,
      pop [HuffmanNode.leaf 'a' 1, HuffmanNode.leaf 'b' 2] = some (x, q1) ∧
      pop q1 = some (y, q2) ∧
      mergeStep [HuffmanNode.leaf 'a' 1, HuffmanNode.leaf 'b' 2] =
        push q2 (HuffmanNode.internal x y (x.freq + y.freq)) ∧
      q2.length + 2 = 2 ∧
      (mergeStep [HuffmanNode.leaf 'a' 1, HuffmanNode.leaf 'b' 2]).length + 1 = 2) ∧
    (mergeLoop [HuffmanNode.leaf 'a' 1, HuffmanNode.leaf 'b' 2]).length = 1 :=
  ⟨by decide, by decide,
    merge_loop_shrinks_and_terminates.1 _ (by decide),
    merge_loop_shrinks_and_terminates.2 _ (by decide)⟩

/-- C10: `build_huffman_tree` consumes its queue: a successful call leaves
the queue empty (the root too is popped), and the error case leaves the
queue untouched, which means still empty. -/
theorem build_consumes_queue :
    (∀ (q : BinaryHeap) (r : HuffmanNode) (q' : BinaryHeap),
      build_huffman_tree q = (Except.ok r, q') → q' = []) ∧
    (∀ (q : BinaryHeap) (m : String) (q' : BinaryHeap),
      build_huffman_tree q = (Except.error m, q') → q' = q ∧ q = []) := by
  constructor
  · intro q r q' h
    exact (build_ok_inv q r q' h).1
  · intro q m q' h
    by_cases hq : q = []
    · subst hq
      rw [build_huffman_tree_empty] at h
      have := congrArg Prod.snd h
      simp at this
      exact ⟨this, rfl⟩
    · obtain ⟨r, _, _, hbuild⟩ := build_huffman_tree_ok q hq
      rw [hbuild] at h
      exact absurd (congrArg Prod.fst h) (by simp)

/-- Witness for `build_consumes_queue`. -/
theorem build_consumes_queue_witness :
    build_huffman_tree [HuffmanNode.leaf 'a' 1, HuffmanNode.leaf 'b' 2] =
      (Except.ok (HuffmanNode.internal (HuffmanNode.leaf 'a' 1)
        (HuffmanNode.leaf 'b' 2) 3), []) ∧
    (([] : BinaryHeap) = []) ∧
    build_huffman_tree [] =
      (Except.error "cannot construct a Huffman code with no characters",
        ([] : BinaryHeap)) ∧
    ([] : BinaryHeap) = [] ∧ ([] : BinaryHeap) = [] :=
  ⟨rfl,
    build_consumes_queue.1 [HuffmanNode.leaf 'a' 1, HuffmanNode.leaf 'b' 2]
      (HuffmanNode.internal (HuffmanNode.leaf 'a' 1) (HuffmanNode.leaf 'b' 2) 3)
      [] rfl,
    rfl,
    build_consumes_queue.2 [] "cannot construct a Huffman code with no characters"
      [] rfl⟩

theorem flatten_map_singleton (l : List Char) :
    (l.map fun c => [c]).flatten = l := by
  induction l with
  | nil => rfl
  | cons a t ih => simp [ih]

theorem sumFreq_cons (x : HuffmanNode) (q : BinaryHeap) :
    sumFreq (x :: q) = x.freq + sumFreq q := by
  simp [sumFreq]

theorem queueChars_cons (x : HuffmanNode) (q : BinaryHeap) :
    queueChars (x :: q) = leafChars x ++ queueChars q := by
  simp [queueChars]

/-- Shared root specification: frequency conservation and total frequency of
a successfully built tree. -/
theorem build_root_spec (s ko : List Char) (hk : KeysOf s ko)
    (r : HuffmanNode) (q' : BinaryHeap)
    (h : build_huffman_tree (get_frequencies s ko) = (Except.ok r, q')) :
    freqInv r ∧ r.freq = s.length := by
  have hml := (build_ok_inv _ r q' h).2.1
  have hinv : (∀ z ∈ mergeLoop (get_frequencies s ko), freqInv z) ∧
      sumFreq (mergeLoop (get_frequencies s ko)) = s.length := by
    refine mergeLoop_inv
      (fun q => (∀ z ∈ q, freqInv z) ∧ sumFreq q = s.length) ?_ _ ⟨?_, ?_⟩
    · rintro q hq ⟨hall, hsum⟩
      obtain ⟨x, y, q2, hxy, hstep⟩ := mergeStep_perm q hq
      have hx : freqInv x := hall x (hxy.mem_iff.mp (by simp))
      have hy : freqInv y := hall y (hxy.mem_iff.mp (by simp))
      constructor
      · intro z hz
        rcases List.mem_cons.mp (hstep.mem_iff.mp hz) with rfl | hz'
        · exact ⟨rfl, hx, hy⟩
        · exact hall z (hxy.mem_iff.mp (by simp [hz']))
      · rw [sumFreq_of_perm hstep, sumFreq_cons]
        rw [← hsum, ← sumFreq_of_perm hxy, sumFreq_cons, sumFreq_cons]
        simp
        omega
    · intro z hz
      obtain ⟨c, _, rfl⟩ :=
        List.mem_map.mp ((get_frequencies_perm s ko).mem_iff.mp hz)
      trivial
    · rw [sumFreq_of_perm (get_frequencies_perm s ko)]
      rw [← sum_charCounts s ko hk]
      simp [sumFreq, List.map_map]
      rfl
  rw [hml] at hinv
  refine ⟨hinv.1 r (by simp), ?_⟩
  have := hinv.2
  rw [sumFreq_cons] at this
  simpa [sumFreq] using this

/-- C3: frequency conservation.  In any tree successfully built from
`get_frequencies`, every internal node's frequency is the sum of its
children's, and the root's frequency is the total number of symbol
occurrences, i.e. the length of the input. -/
theorem freq_conservation (s ko : List Char) (hk : KeysOf s ko)
    (r : HuffmanNode) (q' : BinaryHeap)
    (h : build_huffman_tree (get_frequencies s ko) = (Except.ok r, q')) :
    freqInv r ∧ r.freq = s.length :=
  build_root_spec s ko hk r q' h

/-- Witness for `freq_conservation`. -/
theorem freq_conservation_witness :
    KeysOf ['a', 'b', 'b'] ['a', 'b'] ∧
    build_huffman_tree (get_frequencies ['a', 'b', 'b'] ['a', 'b']) =
      (Except.ok (HuffmanNode.internal (HuffmanNode.leaf 'a' 1)
        (HuffmanNode.leaf 'b' 2) 3), []) ∧
    (freqInv (HuffmanNode.internal (HuffmanNode.leaf 'a' 1)
        (HuffmanNode.leaf 'b' 2) 3) ∧
      (HuffmanNode.internal (HuffmanNode.leaf 'a' 1)
        (HuffmanNode.leaf 'b' 2) 3).freq = (['a', 'b', 'b'] : List Char).length) :=
  ⟨by decide, rfl,
    freq_conservation ['a', 'b', 'b'] ['a', 'b'] (by decide) _ [] rfl⟩

/-- Shared leaf-content argument, generic in the projection `g` taken of the
leaves (characters alone, or character-frequency pairs): the projection of a
successfully built root is a permutation of the projections of the seeded
leaves. -/
theorem build_leafProj_perm {β : Type} (g : HuffmanNode → List β)
    (hg : ∀ x y f, g (HuffmanNode.internal x y f) = g x ++ g y)
    (s ko : List Char) (r : HuffmanNode) (q' : BinaryHeap)
    (h : build_huffman_tree (get_frequencies s ko) = (Except.ok r, q')) :
    g r ~ (ko.map fun c => g (HuffmanNode.leaf c (charCount s c))).flatten := by
  have hml := (build_ok_inv _ r q' h).2.1
  have hinv : ((mergeLoop (get_frequencies s ko)).map g).flatten ~
      (ko.map fun c => g (HuffmanNode.leaf c (charCount s c))).flatten := by
    refine mergeLoop_inv
      (fun q => (q.map g).flatten ~
        (ko.map fun c => g (HuffmanNode.leaf c (charCount s c))).flatten)
      ?_ _ ?_
    · intro q hq hchars
      obtain ⟨x, y, q2, hxy, hstep⟩ := mergeStep_perm q hq
      refine (((hstep.map g).flatten).trans ?_).trans
        (((hxy.map g).flatten).trans hchars)
      simp only [List.map_cons, List.flatten_cons, hg, List.append_assoc]
      exact List.Perm.refl _
    · exact ((get_frequencies_perm s ko).map g).flatten.trans
        (by rw [List.map_map]; rfl)
  rw [hml] at hinv
  simpa using hinv

/-- The leaf characters of a successfully built tree enumerate the key
order. -/
theorem build_leafChars_perm (s ko : List Char) (r : HuffmanNode)
    (q' : BinaryHeap)
    (h : build_huffman_tree (get_frequencies s ko) = (Except.ok r, q')) :
    leafChars r ~ ko := by
  refine (build_leafProj_perm leafChars (fun x y f => rfl) s ko r q' h).trans ?_
  have : (ko.map fun c => leafChars (HuffmanNode.leaf c (charCount s c))) =
      ko.map fun c => [c] := rfl
  rw [this, flatten_map_singleton]

/-- The leaf (character, frequency) pairs of a successfully built tree are
exactly the seeded (character, count) pairs. -/
theorem build_leafPairs_perm (s ko : List Char) (r : HuffmanNode)
    (q' : BinaryHeap)
    (h : build_huffman_tree (get_frequencies s ko) = (Except.ok r, q')) :
    leafPairs r ~ ko.map fun c => (c, charCount s c) := by
  refine (build_leafProj_perm leafPairs (fun x y f => rfl) s ko r q' h).trans ?_
  have h1 : ∀ t : List Char,
      (t.map fun c => leafPairs (HuffmanNode.leaf c (charCount s c))).flatten =
        t.map fun c => (c, charCount s c) := by
    intro t
    induction t with
    | nil => rfl
    | cons a t ih =>
      simp only [List.map_cons, List.flatten_cons, ih]
      rfl
  rw [h1 ko]

/-- C4: `get_frequencies` seeds exactly one leaf per distinct input symbol,
with that symbol's occurrence count as frequency; the empty input seeds the
empty queue; and the leaves of a successfully built tree carry exactly the
distinct input symbols, without duplicates or omissions. -/
theorem leaf_completeness (s ko : List Char) (hk : KeysOf s ko) :
    get_frequencies s ko ~
      ko.map (fun c => HuffmanNode.leaf c (charCount s c)) ∧
    (s = [] → get_frequencies s ko = []) ∧
    (∀ (r : HuffmanNode) (q' : BinaryHeap),
      build_huffman_tree (get_frequencies s ko) = (Except.ok r, q') →
      (leafChars r).Nodup ∧ (∀ c, c ∈ leafChars r ↔ c ∈ s)) := by
  refine ⟨get_frequencies_perm s ko, ?_, ?_⟩
  · intro hs
    subst hs
    rw [keysOf_nil ko hk]
    rfl
  · intro r q' h
    have hlr : leafChars r ~ ko := build_leafChars_perm s ko r q' h
    refine ⟨hlr.symm.nodup hk.1, ?_⟩
    intro c
    rw [hlr.mem_iff]
    exact ⟨fun hc => hk.2.1 c hc, fun hc => hk.2.2 c hc⟩

/-- Witness for `leaf_completeness`. -/
theorem leaf_completeness_witness :
    KeysOf ['a', 'b', 'b'] ['a', 'b'] ∧
    build_huffman_tree (get_frequencies ['a', 'b', 'b'] ['a', 'b']) =
      (Except.ok (HuffmanNode.internal (HuffmanNode.leaf 'a' 1)
        (HuffmanNode.leaf 'b' 2) 3), []) ∧
    (get_frequencies ['a', 'b', 'b'] ['a', 'b'] ~
      (['a', 'b'] : List Char).map
        (fun c => HuffmanNode.leaf c (charCount ['a', 'b', 'b'] c)) ∧
    ((['a', 'b', 'b'] : List Char) = [] →
      get_frequencies ['a', 'b', 'b'] ['a', 'b'] = []) ∧
    (∀ (r : HuffmanNode) (q' : BinaryHeap),
      build_huffman_tree (get_frequencies ['a', 'b', 'b'] ['a', 'b']) =
        (Except.ok r, q') →
      (leafChars r).Nodup ∧ (∀ c, c ∈ leafChars r ↔ c ∈ ['a', 'b', 'b']))) :=
  ⟨by decide, rfl, leaf_completeness ['a', 'b', 'b'] ['a', 'b'] (by decide)⟩

/-- C8: the priority comparison depends solely on frequency, ascending.  In
the max-`BinaryHeap`, `Ordering.gt` means higher extraction priority, so a
node of strictly lower frequency compares strictly greater; and both `cmp`
and the `PartialEq` test are unchanged by replacing a node with any other
node of equal frequency (leaf symbol and children are never inspected). -/
theorem priority_by_frequency_only :
    (∀ x y : HuffmanNode, x.freq < y.freq →
      HuffmanNode.cmp x y = Ordering.gt) ∧
    (∀ x y : HuffmanNode, y.freq < x.freq →
      HuffmanNode.cmp x y = Ordering.lt) ∧
    (∀ x y : HuffmanNode, x.freq = y.freq →
      HuffmanNode.cmp x y = Ordering.eq) ∧
    (∀ x x' y y' : HuffmanNode, x.freq = x'.freq → y.freq = y'.freq →
      HuffmanNode.cmp x y = HuffmanNode.cmp x' y' ∧
      HuffmanNode.beq x y = HuffmanNode.beq x' y') := by
  refine ⟨?_, ?_, ?_, ?_⟩
  · intro x y h
    rw [HuffmanNode.cmp, Nat.compare_eq_lt.mpr h]
    rfl
  · intro x y h
    rw [HuffmanNode.cmp, Nat.compare_eq_gt.mpr h]
    rfl
  · intro x y h
    rw [HuffmanNode.cmp, Nat.compare_eq_eq.mpr h]
    rfl
  · intro x x' y y' hx hy
    constructor
    · rw [HuffmanNode.cmp, HuffmanNode.cmp, hx, hy]
    · rw [HuffmanNode.beq, HuffmanNode.beq, hx, hy]

/-- Witness for `priority_by_frequency_only`, at nodes of unlike shapes. -/
theorem priority_by_frequency_only_witness :
    ((HuffmanNode.leaf 'z' 1).freq <
      (HuffmanNode.internal (HuffmanNode.leaf 'a' 2) (HuffmanNode.leaf 'b' 3) 5).freq ∧
     HuffmanNode.cmp (HuffmanNode.leaf 'z' 1)
       (HuffmanNode.internal (HuffmanNode.leaf 'a' 2) (HuffmanNode.leaf 'b' 3) 5) =
       Ordering.gt) ∧
    ((HuffmanNode.leaf 'q' 7).freq =
      (HuffmanNode.internal (HuffmanNode.leaf 'a' 3) (HuffmanNode.leaf 'b' 4) 7).freq ∧
     HuffmanNode.cmp (HuffmanNode.leaf 'q' 7)
       (HuffmanNode.internal (HuffmanNode.leaf 'a' 3) (HuffmanNode.leaf 'b' 4) 7) =
       Ordering.eq) :=
  ⟨⟨by decide, priority_by_frequency_only.1 _ _ (by decide)⟩,
   ⟨by decide, priority_by_frequency_only.2.2.1 _ _ (by decide)⟩⟩

/-! The concrete scenario of the spec (the `tree_built_correctly` test). -/

/-- The test input `"aaaabbbccd"`. -/
def inputC1 : List Char := ['a', 'a', 'a', 'a', 'b', 'b', 'b', 'c', 'c', 'd']

/-- The tree shape asserted by the spec and the test. -/
def expectedC1 : HuffmanNode :=
  .internal (.leaf 'a' 4)
    (.internal (.leaf 'b' 3)
      (.internal (.leaf 'd' 1) (.leaf 'c' 2) 3) 6) 10

/-- Boolean check that `build_huffman_tree` on `q` succeeds with root `r`
and an emptied queue. -/
def buildsTo (q : BinaryHeap) (r : HuffmanNode) : Bool :=
  match build_huffman_tree q with
  | (Except.ok r', q') => decide (r' = r) && q'.isEmpty
  | (Except.error _, _) => false

theorem buildsTo_iff (q : BinaryHeap) (r : HuffmanNode) :
    buildsTo q r = true ↔ build_huffman_tree q = (Except.ok r, []) := by
  unfold buildsTo
  rcases hb : build_huffman_tree q with ⟨res, q'⟩
  cases res with
  | ok r' =>
    simp only [Bool.and_eq_true, decide_eq_true_eq, List.isEmpty_iff,
      Prod.mk.injEq, Except.ok.injEq]
  | error m =>
    simp

/-- Boolean form of the C1 scenario, as a function of the key order. -/
def c1Holds (ko : List Char) : Bool :=
  decide (drain (get_frequencies inputC1 ko) =
    [HuffmanNode.leaf 'd' 1, HuffmanNode.leaf 'c' 2,
     HuffmanNode.leaf 'b' 3, HuffmanNode.leaf 'a' 4]) &&
  buildsTo (get_frequencies inputC1 ko) expectedC1

theorem c1_all_orders :
    ((['a', 'b', 'c', 'd'] : List Char).permutations').all c1Holds = true := by
  decide

/-- C1: for input "aaaabbbccd" the frequency table is a↦4, b↦3, c↦2, d↦1;
whatever order the `HashMap` enumerates the four keys in, the seeded queue
extracts d(1), c(2), b(3), a(4) in that order, and `build_huffman_tree`
returns the root of `expectedC1`: frequency 10, left child the leaf a(4),
right child an internal 6-node with left the leaf b(3) and right an internal
3-node whose children are the leaf d(1) (left) and the leaf c(2) (right). -/
theorem concrete_scenario (ko : List Char) (hk : KeysOf inputC1 ko) :
    charCount inputC1 'a' = 4 ∧ charCount inputC1 'b' = 3 ∧
    charCount inputC1 'c' = 2 ∧ charCount inputC1 'd' = 1 ∧
    drain (get_frequencies inputC1 ko) =
      [HuffmanNode.leaf 'd' 1, HuffmanNode.leaf 'c' 2,
       HuffmanNode.leaf 'b' 3, HuffmanNode.leaf 'a' 4] ∧
    build_huffman_tree (get_frequencies inputC1 ko) =
      (Except.ok expectedC1, []) := by
  have hperm : ko ~ ['a', 'b', 'c', 'd'] := by
    have hded : inputC1.dedup = ['a', 'b', 'c', 'd'] := by decide
    have := keysOf_perm_dedup inputC1 ko hk
    rwa [hded] at this
  have hmem : ko ∈ (['a', 'b', 'c', 'd'] : List Char).permutations' :=
    List.mem_permutations'.mpr hperm
  have hall := c1_all_orders
  rw [List.all_eq_true] at hall
  have hko := hall ko hmem
  rw [c1Holds, Bool.and_eq_true, decide_eq_true_eq, buildsTo_iff] at hko
  exact ⟨by decide, by decide, by decide, by decide, hko.1, hko.2⟩

/-- Witness for `concrete_scenario`, at the alphabetical key order. -/
theorem concrete_scenario_witness :
    KeysOf inputC1 ['a', 'b', 'c', 'd'] ∧
    (charCount inputC1 'a' = 4 ∧ charCount inputC1 'b' = 3 ∧
     charCount inputC1 'c' = 2 ∧ charCount inputC1 'd' = 1 ∧
     drain (get_frequencies inputC1 ['a', 'b', 'c', 'd']) =
       [HuffmanNode.leaf 'd' 1, HuffmanNode.leaf 'c' 2,
        HuffmanNode.leaf 'b' 3, HuffmanNode.leaf 'a' 4] ∧
     build_huffman_tree (get_frequencies inputC1 ['a', 'b', 'c', 'd']) =
       (Except.ok expectedC1, [])) :=
  ⟨by decide, concrete_scenario ['a', 'b', 'c', 'd'] (by decide)⟩

/-! Determinism across runs (C6). -/

/-- C6 counterexample: the tree produced depends on the (randomized, hence
run-to-run varying) `HashMap` key-iteration order.  For input "ab" the two
enumeration orders of the keys give trees whose leaf symbols sit at swapped
positions, so the trees are not isomorphic in the claimed sense (same symbol
at each corresponding leaf).  Equality of `HuffmanNode` values is exactly
that notion of isomorphism. -/
theorem determinism_counterexample :
    KeysOf ['a', 'b'] ['a', 'b'] ∧ KeysOf ['a', 'b'] ['b', 'a'] ∧
    build_huffman_tree (get_frequencies ['a', 'b'] ['a', 'b']) =
      (Except.ok (HuffmanNode.internal (HuffmanNode.leaf 'a' 1)
        (HuffmanNode.leaf 'b' 1) 2), []) ∧
    build_huffman_tree (get_frequencies ['a', 'b'] ['b', 'a']) =
      (Except.ok (HuffmanNode.internal (HuffmanNode.leaf 'b' 1)
        (HuffmanNode.leaf 'a' 1) 2), []) ∧
    HuffmanNode.internal (HuffmanNode.leaf 'a' 1) (HuffmanNode.leaf 'b' 1) 2 ≠
      HuffmanNode.internal (HuffmanNode.leaf 'b' 1) (HuffmanNode.leaf 'a' 1) 2 :=
  ⟨by decide, by decide, rfl, rfl, by decide⟩

/-- C6 amended: the pipeline is a pure function of the input together with
the key-enumeration order, so runs whose `HashMap` happens to enumerate keys
identically yield identical trees; across arbitrary runs only the root
frequency and the multiset of leaf (symbol, frequency) pairs are guaranteed
to agree, not the shape or the placement of symbols. -/
theorem determinism_amended (s ko₁ ko₂ : List Char) (hk₁ : KeysOf s ko₁)
    (hk₂ : KeysOf s ko₂) (hs : s ≠ []) :
    ∃ r₁ r₂ : HuffmanNode,
      build_huffman_tree (get_frequencies s ko₁) = (Except.ok r₁, []) ∧
      build_huffman_tree (get_frequencies s ko₂) = (Except.ok r₂, []) ∧
      r₁.freq = r₂.freq ∧ leafPairs r₁ ~ leafPairs r₂ := by
  have hko₁ : ko₁ ≠ [] := by
    intro hnil
    rcases List.exists_mem_of_ne_nil s hs with ⟨c, hc⟩
    have := hk₁.2.2 c hc
    rw [hnil] at this
    simp at this
  have hq₁ : get_frequencies s ko₁ ≠ [] := by
    intro hnil
    have := get_frequencies_length s ko₁
    rw [hnil] at this
    exact hko₁ (List.length_eq_zero.mp (by simpa using this.symm))
  have hko₂ : ko₂ ≠ [] := by
    intro hnil
    rcases List.exists_mem_of_ne_nil s hs with ⟨c, hc⟩
    have := hk₂.2.2 c hc
    rw [hnil] at this
    simp at this
  have hq₂ : get_frequencies s ko₂ ≠ [] := by
    intro hnil
    have := get_frequencies_length s ko₂
    rw [hnil] at this
    exact hko₂ (List.length_eq_zero.mp (by simpa using this.symm))
  obtain ⟨r₁, _, _, hb₁⟩ := build_huffman_tree_ok _ hq₁
  obtain ⟨r₂, _, _, hb₂⟩ := build_huffman_tree_ok _ hq₂
  refine ⟨r₁, r₂, hb₁, hb₂, ?_, ?_⟩
  · rw [(build_root_spec s ko₁ hk₁ r₁ [] hb₁).2,
      (build_root_spec s ko₂ hk₂ r₂ [] hb₂).2]
  · refine (build_leafPairs_perm s ko₁ r₁ [] hb₁).trans
      (List.Perm.trans ?_ (build_leafPairs_perm s ko₂ r₂ [] hb₂).symm)
    exact ((keysOf_perm_dedup s ko₁ hk₁).trans
      (keysOf_perm_dedup s ko₂ hk₂).symm).map _

/-- Witness for `determinism_amended`. -/
theorem determinism_amended_witness :
    KeysOf ['a', 'b'] ['a', 'b'] ∧ KeysOf ['a', 'b'] ['b', 'a'] ∧
    (['a', 'b'] : List Char) ≠ [] ∧
    (∃ r₁ r₂ : HuffmanNode,
      build_huffman_tree (get_frequencies ['a', 'b'] ['a', 'b']) =
        (Except.ok r₁, []) ∧
      build_huffman_tree (get_frequencies ['a', 'b'] ['b', 'a']) =
        (Except.ok r₂, []) ∧
      r₁.freq = r₂.freq ∧ leafPairs r₁ ~ leafPairs r₂) :=
  ⟨by decide, by decide, by decide,
    determinism_amended ['a', 'b'] ['a', 'b'] ['b', 'a']
      (by decide) (by decide) (by decide)⟩

/-! The binary-heap shape invariant.  `BinaryHeap` is a max-heap for
`HuffmanNode.cmp`; since `cmp` reverses the comparison on `freq`, the backing
array satisfies the min-heap property on frequencies. -/

/-- Frequency stored at array slot `i`. -/
def fr (l : BinaryHeap) (i : Nat) : Nat :=
  (nth l i).freq

/-- The min-heap property on frequencies: every non-root slot is at least its
parent slot `(i - 1) / 2`. -/
def heapProp (l : BinaryHeap) : Prop :=
  ∀ i, i < l.length → 0 < i → fr l ((i - 1) / 2) ≤ fr l i

instance heapPropDecidable (l : BinaryHeap) : Decidable (heapProp l) :=
  decidable_of_iff
    (∀ i ∈ List.range l.length, 0 < i → fr l ((i - 1) / 2) ≤ fr l i)
    ⟨fun h i hi h0 => h i (List.mem_range.mpr hi) h0,
     fun h i hi h0 => h i (List.mem_range.mp hi) h0⟩

theorem heapProp_nil : heapProp [] := by
  intro i hi
  simp at hi

theorem heapProp_root_min (l : BinaryHeap) (h : heapProp l) :
    ∀ j, j < l.length → fr l 0 ≤ fr l j := by
  intro j
  induction j using Nat.strong_induction_on with
  | _ j ih =>
    intro hj
    rcases Nat.eq_zero_or_pos j with rfl | hj0
    · exact Nat.le_refl _
    · exact Nat.le_trans (ih ((j - 1) / 2) (by omega) (by omega)) (h j hj hj0)

/-- Precondition of `sift_up(0, pos)`: the parent relation holds at every
slot other than `pos`, and the element above `pos` already bounds the
children of `pos` (so that moving the element at `pos` up cannot break the
edges below it). -/
def siftUpInv (l : BinaryHeap) (pos : Nat) : Prop :=
  (∀ i, i < l.length → 0 < i → i ≠ pos → fr l ((i - 1) / 2) ≤ fr l i) ∧
  (0 < pos → ∀ c, c < l.length → (c - 1) / 2 = pos →
    fr l ((pos - 1) / 2) ≤ fr l c)

theorem fr_swapList_fst (l : BinaryHeap) (i j : Nat) (hij : i ≠ j)
    (hi : i < l.length) (hj : j < l.length) : fr (swapList l i j) i = fr l j := by
  rw [fr, fr, nth_swapList_fst l i j hij hi hj]

theorem fr_swapList_snd (l : BinaryHeap) (i j : Nat) (hi : i < l.length)
    (hj : j < l.length) : fr (swapList l i j) j = fr l i := by
  rw [fr, fr, nth_swapList_snd l i j hi hj]

theorem fr_swapList_other (l : BinaryHeap) (i j k : Nat) (hki : k ≠ i)
    (hkj : k ≠ j) : fr (swapList l i j) k = fr l k := by
  rw [fr, fr, nth_swapList_other l i j k hki hkj]

theorem siftUpFuel_heapProp (fuel : Nat) : ∀ (l : BinaryHeap) (pos : Nat),
    pos < l.length → pos ≤ fuel → siftUpInv l pos →
    heapProp (siftUpFuel fuel l 0 pos) := by
  induction fuel with
  | zero =>
    intro l pos hlt hle hinv
    have hpos : pos = 0 := by omega
    subst hpos
    intro i hi h0
    exact hinv.1 i hi h0 (by omega)
  | succ fuel ih =>
    intro l pos hlt hle hinv
    rw [siftUpFuel]
    by_cases hs : 0 < pos
    · rw [if_pos hs]
      by_cases hle2 : (nth l pos).ordLe (nth l ((pos - 1) / 2)) = true
      · rw [if_pos hle2]
        have hparle : fr l ((pos - 1) / 2) ≤ fr l pos :=
          (HuffmanNode.ordLe_iff _ _).mp hle2
        intro i hi h0
        by_cases hip : i = pos
        · subst hip; exact hparle
        · exact hinv.1 i hi h0 hip
      · rw [if_neg hle2]
        have hlt2 : fr l pos < fr l ((pos - 1) / 2) := by
          have hiff := HuffmanNode.ordLe_iff (nth l pos) (nth l ((pos - 1) / 2))
          have hnot : ¬ ((nth l ((pos - 1) / 2)).freq ≤ (nth l pos).freq) :=
            fun hc => hle2 (hiff.mpr hc)
          simp only [fr]
          omega
        have hp_lt : (pos - 1) / 2 < pos := by omega
        have hp_len : (pos - 1) / 2 < l.length := by omega
        have hfr_p : fr (swapList l pos ((pos - 1) / 2)) ((pos - 1) / 2) =
            fr l pos := fr_swapList_snd l pos ((pos - 1) / 2) hlt hp_len
        have hfr_pos : fr (swapList l pos ((pos - 1) / 2)) pos =
            fr l ((pos - 1) / 2) :=
          fr_swapList_fst l pos ((pos - 1) / 2) (by omega) hlt hp_len
        refine ih (swapList l pos ((pos - 1) / 2)) ((pos - 1) / 2)
          (by rw [length_swapList]; omega) (by omega) ⟨?_, ?_⟩
        · intro i hi h0 hip
          rw [length_swapList] at hi
          by_cases hipos : i = pos
          · subst hipos
            rw [hfr_p, hfr_pos]
            omega
          · have hfr_i : fr (swapList l pos ((pos - 1) / 2)) i = fr l i :=
              fr_swapList_other l pos ((pos - 1) / 2) i hipos hip
            by_cases hpari : (i - 1) / 2 = (pos - 1) / 2
            · rw [hpari, hfr_p, hfr_i]
              have := hinv.1 i hi h0 hipos
              rw [hpari] at this
              omega
            · by_cases hpari2 : (i - 1) / 2 = pos
              · rw [hpari2, hfr_pos, hfr_i]
                exact hinv.2 hs i hi hpari2
              · have hfr_par : fr (swapList l pos ((pos - 1) / 2)) ((i - 1) / 2) =
                    fr l ((i - 1) / 2) :=
                  fr_swapList_other l pos ((pos - 1) / 2) ((i - 1) / 2)
                    hpari2 hpari
                rw [hfr_par, hfr_i]
                exact hinv.1 i hi h0 hipos
        · intro hp0 c hc hpc
          rw [length_swapList] at hc
          have hgp : ((pos - 1) / 2 - 1) / 2 ≠ pos := by omega
          have hgp2 : ((pos - 1) / 2 - 1) / 2 ≠ (pos - 1) / 2 := by omega
          have hfr_gp : fr (swapList l pos ((pos - 1) / 2))
              (((pos - 1) / 2 - 1) / 2) = fr l (((pos - 1) / 2 - 1) / 2) :=
            fr_swapList_other l pos ((pos - 1) / 2) _ hgp hgp2
          have hppar := hinv.1 ((pos - 1) / 2) hp_len hp0 (by omega)
          by_cases hcpos : c = pos
          · subst hcpos
            rw [hfr_gp, hfr_pos]
            exact hppar
          · have hcp : c ≠ (pos - 1) / 2 := by omega
            have hfr_c : fr (swapList l pos ((pos - 1) / 2)) c = fr l c :=
              fr_swapList_other l pos ((pos - 1) / 2) c hcpos hcp
            rw [hfr_gp, hfr_c]
            have hc2 := hinv.1 c hc (by omega) hcpos
            rw [hpc] at hc2
            omega
    · rw [if_neg hs]
      have hpos : pos = 0 := by omega
      subst hpos
      intro i hi h0
      exact hinv.1 i hi h0 (by omega)

theorem fr_append_left (l : BinaryHeap) (x : HuffmanNode) (k : Nat)
    (hk : k < l.length) : fr (l ++ [x]) k = fr l k := by
  rw [fr, fr, nth, nth, List.getElem?_append_left hk]

theorem heapProp_push (l : BinaryHeap) (x : HuffmanNode) (h : heapProp l) :
    heapProp (push l x) := by
  rw [push, sift_up]
  refine siftUpFuel_heapProp l.length (l ++ [x]) l.length (by simp)
    (Nat.le_refl _) ⟨?_, ?_⟩
  · intro i hi h0 hip
    have hi' : i < l.length := by
      rw [List.length_append] at hi
      simp at hi
      omega
    rw [fr_append_left l x i hi', fr_append_left l x ((i - 1) / 2) (by omega)]
    exact h i hi' h0
  · intro h0 c hc hpc
    rw [List.length_append] at hc
    simp at hc
    omega

/-- Precondition of the descent phase of `sift_down_to_bottom`: the parent
relation holds at every edge not touching `pos`, and the slot above `pos`
already bounds the children of `pos`. -/
def downInv (l : BinaryHeap) (pos : Nat) : Prop :=
  (∀ i, i < l.length → 0 < i → i ≠ pos → (i - 1) / 2 ≠ pos →
    fr l ((i - 1) / 2) ≤ fr l i) ∧
  (0 < pos → ∀ c, c < l.length → (c - 1) / 2 = pos →
    fr l ((pos - 1) / 2) ≤ fr l c)

theorem preferredChild_cases (l : BinaryHeap) (pos : Nat) :
    preferredChild l pos = 2 * pos + 1 ∨ preferredChild l pos = 2 * pos + 2 := by
  unfold preferredChild
  by_cases h : (nth l (2 * pos + 1)).ordLe (nth l (2 * pos + 2)) = true
  · rw [if_pos h]; exact Or.inr rfl
  · rw [if_neg h]; exact Or.inl rfl

theorem preferredChild_min (l : BinaryHeap) (pos : Nat) :
    fr l (preferredChild l pos) ≤ fr l (2 * pos + 1) ∧
    fr l (preferredChild l pos) ≤ fr l (2 * pos + 2) := by
  unfold preferredChild
  by_cases h : (nth l (2 * pos + 1)).ordLe (nth l (2 * pos + 2)) = true
  · rw [if_pos h]
    have hle := (HuffmanNode.ordLe_iff _ _).mp h
    exact ⟨hle, Nat.le_refl _⟩
  · rw [if_neg h]
    have hiff := HuffmanNode.ordLe_iff (nth l (2 * pos + 1)) (nth l (2 * pos + 2))
    have hnot : ¬ ((nth l (2 * pos + 2)).freq ≤ (nth l (2 * pos + 1)).freq) :=
      fun hc => h (hiff.mpr hc)
    exact ⟨Nat.le_refl _, by simp only [fr]; omega⟩

theorem siftDownPathFuel_downInv (fuel : Nat) : ∀ (l : BinaryHeap) (pos : Nat),
    pos < l.length → l.length ≤ fuel + pos → downInv l pos →
    downInv (siftDownPathFuel fuel l pos).1 (siftDownPathFuel fuel l pos).2 ∧
    (siftDownPathFuel fuel l pos).1.length = l.length ∧
    (siftDownPathFuel fuel l pos).2 < l.length ∧
    l.length ≤ 2 * (siftDownPathFuel fuel l pos).2 + 1 := by
  induction fuel with
  | zero =>
    intro l pos hlt hle
    omega
  | succ fuel ih =>
    intro l pos hlt hle hinv
    rw [siftDownPathFuel]
    by_cases h2 : 2 * pos + 2 < l.length
    · rw [if_pos h2]
      rcases preferredChild_cases l pos with hch | hch <;>
      · have hch_gt : pos < preferredChild l pos := by omega
        have hch_len : preferredChild l pos < l.length := by omega
        have hch_par : (preferredChild l pos - 1) / 2 = pos := by omega
        have hsel := preferredChild_min l pos
        have hfr_pos : fr (swapList l pos (preferredChild l pos)) pos =
            fr l (preferredChild l pos) :=
          fr_swapList_fst l pos (preferredChild l pos) (by omega) hlt hch_len
        have hfr_ch : fr (swapList l pos (preferredChild l pos))
            (preferredChild l pos) = fr l pos :=
          fr_swapList_snd l pos (preferredChild l pos) hlt hch_len
        have hinv' : downInv (swapList l pos (preferredChild l pos))
            (preferredChild l pos) := by
          constructor
          · intro i hi h0 hich hpari_ch
            rw [length_swapList] at hi
            by_cases hipos : i = pos
            · rw [hipos]
              have hpp1 : (pos - 1) / 2 ≠ pos := by omega
              have hpp2 : (pos - 1) / 2 ≠ preferredChild l pos := by omega
              rw [hfr_pos,
                fr_swapList_other l pos (preferredChild l pos) _ hpp1 hpp2]
              exact hinv.2 (by omega) (preferredChild l pos) hch_len hch_par
            · have hfr_i : fr (swapList l pos (preferredChild l pos)) i =
                  fr l i :=
                fr_swapList_other l pos (preferredChild l pos) i hipos hich
              by_cases hpari : (i - 1) / 2 = pos
              · rw [hpari, hfr_pos, hfr_i]
                have hi12 : i = 2 * pos + 1 ∨ i = 2 * pos + 2 := by omega
                rcases hi12 with rfl | rfl
                · exact hsel.1
                · exact hsel.2
              · have hfr_par : fr (swapList l pos (preferredChild l pos))
                    ((i - 1) / 2) = fr l ((i - 1) / 2) :=
                  fr_swapList_other l pos (preferredChild l pos) _ hpari
                    hpari_ch
                rw [hfr_par, hfr_i]
                exact hinv.1 i hi h0 hipos hpari
          · intro hch0 c hc hpc
            rw [length_swapList] at hc
            have hcpos : c ≠ pos := by omega
            have hcch : c ≠ preferredChild l pos := by omega
            rw [hch_par, hfr_pos,
              fr_swapList_other l pos (preferredChild l pos) c hcpos hcch]
            have := hinv.1 c hc (by omega) hcpos (by omega)
            rw [hpc] at this
            exact this
        have hres := ih (swapList l pos (preferredChild l pos))
          (preferredChild l pos) (by rw [length_swapList]; omega)
          (by rw [length_swapList]; omega) hinv'
        rw [length_swapList] at hres
        exact hres
    · rw [if_neg h2]
      by_cases h1 : 2 * pos + 1 < l.length
      · rw [if_pos h1]
        have hch_par : (2 * pos + 1 - 1) / 2 = pos := by omega
        have hfr_pos : fr (swapList l pos (2 * pos + 1)) pos =
            fr l (2 * pos + 1) :=
          fr_swapList_fst l pos (2 * pos + 1) (by omega) hlt h1
        refine ⟨⟨?_, ?_⟩, length_swapList l pos (2 * pos + 1), by simpa, by simp; omega⟩
        · intro i hi h0 hich hpari_ch
          rw [length_swapList] at hi
          by_cases hipos : i = pos
          · rw [hipos]
            have hpp1 : (pos - 1) / 2 ≠ pos := by omega
            have hpp2 : (pos - 1) / 2 ≠ 2 * pos + 1 := by omega
            rw [hfr_pos, fr_swapList_other l pos (2 * pos + 1) _ hpp1 hpp2]
            exact hinv.2 (by omega) (2 * pos + 1) h1 hch_par
          · by_cases hpari : (i - 1) / 2 = pos
            · omega
            · have hfr_i : fr (swapList l pos (2 * pos + 1)) i = fr l i :=
                fr_swapList_other l pos (2 * pos + 1) i hipos hich
              have hfr_par : fr (swapList l pos (2 * pos + 1)) ((i - 1) / 2) =
                  fr l ((i - 1) / 2) :=
                fr_swapList_other l pos (2 * pos + 1) _ hpari hpari_ch
              rw [hfr_par, hfr_i]
              exact hinv.1 i hi h0 hipos hpari
        · intro hch0 c hc hpc
          rw [length_swapList] at hc
          omega
      · rw [if_neg h1]
        exact ⟨hinv, rfl, hlt, by omega⟩

theorem sift_down_to_bottom_heapProp (l : BinaryHeap) (hne : 0 < l.length)
    (hinv : downInv l 0) : heapProp (sift_down_to_bottom l 0) := by
  obtain ⟨hd, hlen, hblt, hbot⟩ :=
    siftDownPathFuel_downInv l.length l 0 hne (by omega) hinv
  rw [sift_down_to_bottom, sift_up]
  have hblt' : (siftDownPath l 0).2 < (siftDownPath l 0).1.length := by
    rw [siftDownPath, hlen]
    exact hblt
  refine siftUpFuel_heapProp _ _ _ hblt' (Nat.le_refl _) ⟨?_, ?_⟩
  · intro i hi h0 hib
    rw [siftDownPath] at hi hib ⊢
    have hi' : i < l.length := by rw [← hlen]; exact hi
    refine hd.1 i hi h0 hib ?_
    omega
  · intro hb0 c hc hpc
    rw [siftDownPath] at hb0 hc hpc ⊢
    have hc' : c < l.length := by rw [← hlen]; exact hc
    omega

theorem nth_set_zero_ne (t : BinaryHeap) (v : HuffmanNode) (k : Nat)
    (hk : k ≠ 0) : nth (t.set 0 v) k = nth t k := by
  rw [nth, nth, List.getElem?_set_ne (by omega)]

theorem nth_dropLast (t : BinaryHeap) (k : Nat) (hk : k < t.dropLast.length) :
    nth t.dropLast k = nth t k := by
  rw [nth_eq_getElem _ _ hk,
    nth_eq_getElem _ _ (by rw [List.length_dropLast] at hk; omega),
    List.getElem_dropLast]

theorem heapProp_pop (l : BinaryHeap) (x : HuffmanNode) (l' : BinaryHeap)
    (hh : heapProp l) (h : pop l = some (x, l')) : heapProp l' := by
  have hne : l ≠ [] := by
    intro hnil; subst hnil; exact Option.noConfusion h
  rw [pop, if_neg (by simpa [List.isEmpty_iff] using hne)] at h
  by_cases hd : l.dropLast.isEmpty = true
  · rw [if_pos hd] at h
    obtain ⟨-, rfl⟩ : nth l (l.length - 1) = x ∧ l.dropLast = l' := by
      cases h; exact ⟨rfl, rfl⟩
    rw [List.isEmpty_iff] at hd
    rw [hd]
    exact heapProp_nil
  · rw [if_neg hd] at h
    rw [List.isEmpty_iff] at hd
    have hdlen : 0 < l.dropLast.length := List.length_pos.mpr hd
    obtain ⟨-, rfl⟩ : nth l.dropLast 0 = x ∧
        sift_down_to_bottom (l.dropLast.set 0 (nth l (l.length - 1))) 0 = l' := by
      cases h; exact ⟨rfl, rfl⟩
    refine sift_down_to_bottom_heapProp _ (by simpa using hdlen) ⟨?_, ?_⟩
    · intro i hi h0 hi0 hpari0
      rw [List.length_set, List.length_dropLast] at hi
      have hfr_i : fr (l.dropLast.set 0 (nth l (l.length - 1))) i =
          fr l i := by
        rw [fr, nth_set_zero_ne _ _ _ hi0, nth_dropLast, fr]
        rw [List.length_dropLast]
        omega
      have hfr_par : fr (l.dropLast.set 0 (nth l (l.length - 1))) ((i - 1) / 2) =
          fr l ((i - 1) / 2) := by
        rw [fr, nth_set_zero_ne _ _ _ hpari0, nth_dropLast, fr]
        rw [List.length_dropLast]
        omega
      rw [hfr_i, hfr_par]
      exact hh i (by omega) h0
    · omega

theorem pop_root (l : BinaryHeap) (x : HuffmanNode) (l' : BinaryHeap)
    (h : pop l = some (x, l')) : x = nth l 0 := by
  have hne : l ≠ [] := by
    intro hnil; subst hnil; exact Option.noConfusion h
  rw [pop, if_neg (by simpa [List.isEmpty_iff] using hne)] at h
  by_cases hd : l.dropLast.isEmpty = true
  · rw [if_pos hd] at h
    obtain ⟨rfl, -⟩ : nth l (l.length - 1) = x ∧ l.dropLast = l' := by
      cases h; exact ⟨rfl, rfl⟩
    rw [List.isEmpty_iff] at hd
    have : l.length = 1 := by
      have := List.length_dropLast l
      rw [hd] at this
      have hpos := List.length_pos.mpr hne
      simp at this
      omega
    rw [this]
  · rw [if_neg hd] at h
    rw [List.isEmpty_iff] at hd
    have hdlen : 0 < l.dropLast.length := List.length_pos.mpr hd
    obtain ⟨rfl, -⟩ : nth l.dropLast 0 = x ∧
        sift_down_to_bottom (l.dropLast.set 0 (nth l (l.length - 1))) 0 = l' := by
      cases h; exact ⟨rfl, rfl⟩
    rw [nth_dropLast _ _ hdlen]

theorem pop_min (l : BinaryHeap) (x : HuffmanNode) (l' : BinaryHeap)
    (hh : heapProp l) (h : pop l = some (x, l')) :
    ∀ z ∈ l', x.freq ≤ z.freq := by
  intro z hz
  have hzl : z ∈ l :=
    (pop_perm l x l' h).mem_iff.mp (List.mem_cons_of_mem x hz)
  obtain ⟨j, hj, rfl⟩ := List.mem_iff_getElem.mp hzl
  have hroot := heapProp_root_min l hh j hj
  rw [pop_root l x l' h, ← nth_eq_getElem l j hj]
  exact hroot

theorem mergeStep_heap_leftLe (q : BinaryHeap) (hq : 2 ≤ q.length)
    (h : heapProp q ∧ ∀ z ∈ q, leftLe z) :
    heapProp (mergeStep q) ∧ ∀ z ∈ mergeStep q, leftLe z := by
  obtain ⟨x, q1, y, q2, h1, h2, heq, hlen⟩ := mergeStep_spec q hq
  have hheap1 : heapProp q1 := heapProp_pop q x q1 h.1 h1
  have hheap2 : heapProp q2 := heapProp_pop q1 y q2 hheap1 h2
  have hy1 : y ∈ q1 := (pop_perm q1 y q2 h2).mem_iff.mp (List.mem_cons_self y q2)
  have hxy : x.freq ≤ y.freq := pop_min q x q1 h.1 h1 y hy1
  have hxq : x ∈ q := (pop_perm q x q1 h1).mem_iff.mp (List.mem_cons_self x q1)
  have hyq : y ∈ q := (pop_perm q x q1 h1).mem_iff.mp (List.mem_cons_of_mem x hy1)
  have hnode : leftLe (HuffmanNode.internal x y (x.freq + y.freq)) :=
    ⟨hxy, h.2 x hxq, h.2 y hyq⟩
  rw [heq]
  refine ⟨heapProp_push q2 _ hheap2, ?_⟩
  intro z hz
  rcases List.mem_cons.mp ((push_perm q2 _).mem_iff.mp hz) with rfl | hz2
  · exact hnode
  · have hz1 : z ∈ q1 := (pop_perm q1 y q2 h2).mem_iff.mp (List.mem_cons_of_mem y hz2)
    exact h.2 z ((pop_perm q x q1 h1).mem_iff.mp (List.mem_cons_of_mem x hz1))

theorem foldl_push_heap_leftLe (f : Char → HuffmanNode)
    (hf : ∀ c, leftLe (f c)) (ko : List Char) :
    ∀ q0 : BinaryHeap, heapProp q0 → (∀ z ∈ q0, leftLe z) →
    heapProp (ko.foldl (fun q c => push q (f c)) q0) ∧
      ∀ z ∈ ko.foldl (fun q c => push q (f c)) q0, leftLe z := by
  induction ko with
  | nil => intro q0 hp hl; exact ⟨hp, hl⟩
  | cons a t ih =>
    intro q0 hp hl
    refine ih (push q0 (f a)) (heapProp_push q0 (f a) hp) ?_
    intro z hz
    rcases List.mem_cons.mp ((push_perm q0 (f a)).mem_iff.mp hz) with rfl | hz2
    · exact hf a
    · exact hl z hz2

theorem get_frequencies_heap_leftLe (s ko : List Char) :
    heapProp (get_frequencies s ko) ∧
      ∀ z ∈ get_frequencies s ko, leftLe z := by
  rw [get_frequencies]
  exact foldl_push_heap_leftLe (fun c => HuffmanNode.leaf c (charCount s c))
    (fun _ => trivial) ko [] heapProp_nil (by simp)

instance leftLeDecidable : (t : HuffmanNode) → Decidable (leftLe t)
  | .leaf _ _ => .isTrue trivial
  | .internal l r _ =>
    have : Decidable (leftLe l) := leftLeDecidable l
    have : Decidable (leftLe r) := leftLeDecidable r
    inferInstanceAs (Decidable (_ ∧ _ ∧ _))

/-- C9: in every merge, the left child of the created internal node is the
node popped first; since the heap invariant makes each pop return a node of
minimal frequency, the left child's frequency never exceeds the right
child's, in every internal node of a tree built by the pipeline. -/
theorem left_child_extracted_first :
    (∀ q : BinaryHeap, 2 ≤ q.length → heapProp q →
      ∃ x q1 y q2, pop q = some (x, q1) ∧ pop q1 = some (y, q2) ∧
        mergeStep q = push q2 (HuffmanNode.internal x y (x.freq + y.freq)) ∧
        x.freq ≤ y.freq) ∧
    (∀ (s ko : List Char) (r : HuffmanNode) (q' : BinaryHeap),
      build_huffman_tree (get_frequencies s ko) = (Except.ok r, q') →
      leftLe r) := by
  constructor
  · intro q hq hheap
    obtain ⟨x, q1, y, q2, h1, h2, heq, hlen⟩ := mergeStep_spec q hq
    have hy1 : y ∈ q1 :=
      (pop_perm q1 y q2 h2).mem_iff.mp (List.mem_cons_self y q2)
    exact ⟨x, q1, y, q2, h1, h2, heq, pop_min q x q1 hheap h1 y hy1⟩
  · intro s ko r q' h
    have hml := (build_ok_inv _ r q' h).2.1
    have hinv := mergeLoop_inv
      (fun q => heapProp q ∧ ∀ z ∈ q, leftLe z)
      mergeStep_heap_leftLe _ (get_frequencies_heap_leftLe s ko)
    rw [hml] at hinv
    exact hinv.2 r (by simp)

/-- Witness for `left_child_extracted_first`. -/
theorem left_child_extracted_first_witness :
    (2 ≤ ([HuffmanNode.leaf 'a' 1, HuffmanNode.leaf 'b' 2] : BinaryHeap).length ∧
     heapProp [HuffmanNode.leaf 'a' 1, HuffmanNode.leaf 'b' 2] ∧
     ∃ x q1 y q2,
       pop [HuffmanNode.leaf 'a' 1, HuffmanNode.leaf 'b' 2] = some (x, q1) ∧
       pop q1 = some (y, q2) ∧
       mergeStep [HuffmanNode.leaf 'a' 1, HuffmanNode.leaf 'b' 2] =
         push q2 (HuffmanNode.internal x y (x.freq + y.freq)) ∧
       x.freq ≤ y.freq) ∧
    (build_huffman_tree (get_frequencies ['a', 'b', 'b'] ['a', 'b']) =
       (Except.ok (HuffmanNode.internal (HuffmanNode.leaf 'a' 1)
         (HuffmanNode.leaf 'b' 2) 3), []) ∧
     leftLe (HuffmanNode.internal (HuffmanNode.leaf 'a' 1)
       (HuffmanNode.leaf 'b' 2) 3)) :=
  ⟨⟨by decide, by decide,
     left_child_extracted_first.1 _ (by decide) (by decide)⟩,
   ⟨rfl, left_child_extracted_first.2 ['a', 'b', 'b'] ['a', 'b'] _ [] rfl⟩⟩

end Huffman
